import Mathlib

/-! Native export shim (`library.cpp`).

A shallow embedding of the three C-linkage functions exported by
`src/main/java/ch/naviqore/service/gtfs/nativecxx/raptor/library.cpp`
(`addNumbers`, `fillString`, `getMessageLength`) and of the class `MyClass`
they use, followed by theorems about them.

Modelling decisions.

* The observable state is a `World`: the lines written to `std::cout`, the
  bytes of the object that the `char* str` argument points into (index `0` is
  `*str`), and a ghost trace of the indices stored to.
* Every store is bounds checked against the real size of that object.  A store
  outside it, which is undefined behaviour in C++, is the result
  `Except.error (Fault.outOfBoundsStore i)`.
* `size_t` is an unsigned type of `w` bits; `w` is a parameter. The only
  `size_t` operation that can wrap in the source is `length - 1`, embedded as
  `sizeSub w length 1`.
* `int` is the 32 bit two's complement type of the target (the file uses
  `__declspec(dllexport)`, so the target is MSVC). `a + b` is embedded as the
  sum reduced into the `int` range, which is what the target computes; the
  C++ standard itself leaves a sum outside the range undefined.
* A byte is a natural number below 256; `std::string` is a Lean `String`,
  whose bytes are its UTF-8 encoding.
-/

namespace NativeShim

/-! ## Memory model -/

/-- Faults of the bounds-checked memory model: the places where the C++
program would have undefined behaviour. -/
inductive Fault where
  | outOfBoundsStore (index : Nat)
  | outOfBoundsLoad (index : Nat)
  deriving DecidableEq

/-- Observable state: `stdout` holds the lines written to `std::cout` (oldest
first), `buf` the bytes of the object `str` points into, and `stores` a ghost
trace of the indices of all byte stores performed so far (oldest first). -/
structure World where
  stdout : List String
  buf : List Nat
  stores : List Nat
  deriving DecidableEq

instance : DecidableEq (Except Fault World)
  | .ok a, .ok b =>
    if h : a = b then isTrue (by rw [h]) else isFalse (fun h1 => h (Except.ok.inj h1))
  | .error a, .error b =>
    if h : a = b then isTrue (by rw [h]) else isFalse (fun h1 => h (Except.error.inj h1))
  | .ok _, .error _ => isFalse (fun h => by cases h)
  | .error _, .ok _ => isFalse (fun h => by cases h)

/-- The store `str[i] = b`, bounds checked. -/
def storeByte (i b : Nat) (σ : World) : Except Fault World :=
  if i < σ.buf.length then
    .ok { σ with buf := σ.buf.set i b, stores := σ.stores ++ [i] }
  else
    .error (.outOfBoundsStore i)

/-! ## `size_t` and `int` arithmetic -/

/-- Subtraction `a - b` on `size_t` values of width `w`: the result is reduced
modulo `2 ^ w`. -/
def sizeSub (w a b : Nat) : Nat :=
  (a + 2 ^ w - b % 2 ^ w) % 2 ^ w

/-- The largest `size_t` value for width `w`. -/
def SIZE_MAX (w : Nat) : Nat := 2 ^ w - 1

/-- The least value of `int`. -/
def INT_MIN : Int := -2 ^ 31

/-- The largest value of `int`. -/
def INT_MAX : Int := 2 ^ 31 - 1

/-- Membership in the range of `int`. -/
def isInt (x : Int) : Prop := INT_MIN ≤ x ∧ x ≤ INT_MAX

instance (x : Int) : Decidable (isInt x) := by
  unfold isInt; infer_instance

/-- Reduction of a mathematical integer into the range of `int`
(two's complement, 32 bits). -/
def wrapInt (x : Int) : Int :=
  (x + 2 ^ 31) % 2 ^ 32 - 2 ^ 31

/-! ## `<cstring>` -/

/-- The array returned by `std::string::c_str`: the bytes of the string
followed by a terminating zero byte. -/
def c_str (s : String) : List Nat :=
  s.toUTF8.data.toList.map UInt8.toNat ++ [0]

/-- Lengths as `strlen` computes them: the number of bytes before the first
zero byte. -/
def strlen : List Nat → Nat
  | [] => 0
  | c :: cs => if c = 0 then 0 else strlen cs + 1

/-- The loop of `strcpy`: copy the bytes of `src` to `str[i], str[i+1], ...`
up to and including the first zero byte. Running off the end of `src` is a
load fault. -/
def strcpyFrom : List Nat → Nat → World → Except Fault World
  | [], i, _ => .error (.outOfBoundsLoad i)
  | c :: cs, i, σ =>
    match storeByte i c σ with
    | .error e => .error e
    | .ok σ1 => if c = 0 then .ok σ1 else strcpyFrom cs (i + 1) σ1

/-- The call `std::strcpy(str, src)`. -/
def strcpy (src : List Nat) (σ : World) : Except Fault World :=
  strcpyFrom src 0 σ

/-- The zero padding of `strncpy`: store `n` zero bytes from index `i` on. -/
def padZero : Nat → Nat → World → Except Fault World
  | _, 0, σ => .ok σ
  | i, n + 1, σ =>
    match storeByte i 0 σ with
    | .error e => .error e
    | .ok σ1 => padZero (i + 1) n σ1

/-- The loop of `strncpy`: store exactly `n` bytes from index `i` on, taken
from `src` up to and including its first zero byte and zero from there on. -/
def strncpyFrom : List Nat → Nat → Nat → World → Except Fault World
  | _, _, 0, σ => .ok σ
  | [], i, _ + 1, _ => .error (.outOfBoundsLoad i)
  | c :: cs, i, n + 1, σ =>
    match storeByte i c σ with
    | .error e => .error e
    | .ok σ1 => if c = 0 then padZero (i + 1) n σ1 else strncpyFrom cs (i + 1) n σ1

/-- The call `std::strncpy(str, src, n)`. -/
def strncpy (src : List Nat) (n : Nat) (σ : World) : Except Fault World :=
  strncpyFrom src 0 n σ

/-! ## `MyClass` -/

/-- The class `MyClass`: one `std::string` field. -/
structure MyClass where
  message : String
  deriving DecidableEq

/-- The constructor `MyClass::MyClass()`: initialises `message` and prints a
line. -/
def MyClass.ctor (σ : World) : MyClass × World :=
  ({ message := "Hello from C++" },
   { σ with stdout := σ.stdout ++ ["Constructor called"] })

/-- The destructor `MyClass::~MyClass()`: prints a line. -/
def MyClass.dtor (_self : MyClass) (σ : World) : World :=
  { σ with stdout := σ.stdout ++ ["Destructor called"] }

/-- The method `MyClass::getString`. -/
def MyClass.getString (self : MyClass) : String :=
  self.message

/-- The method `MyClass::messageLength`: `std::string::length`, a number of
bytes. -/
def MyClass.messageLength (self : MyClass) : Nat :=
  self.message.utf8ByteSize

/-! ## The exported functions -/

/-- The export `int addNumbers(int a, int b)`. -/
def addNumbers (a b : Int) (σ : World) : Int × World :=
  (wrapInt (a + b), σ)

/-- The export `void fillString(char* str, size_t length)` for a `size_t` of
`w` bits. The object `myClass` is destroyed when the body is left. -/
def fillString (w : Nat) (length : Nat) (σ : World) : Except Fault World :=
  let (myClass, σ1) := MyClass.ctor σ
  let message := myClass.getString
  let c_message := c_str message
  let message_length := strlen c_message
  let body : Except Fault World :=
    if message_length < length then
      strcpy c_message σ1
    else
      match strncpy c_message (sizeSub w length 1) σ1 with
      | .error e => .error e
      | .ok σ2 => storeByte (sizeSub w length 1) 0 σ2
  match body with
  | .error e => .error e
  | .ok σ3 => .ok (myClass.dtor σ3)

/-- The export `size_t getMessageLength()`. -/
def getMessageLength (σ : World) : Nat × World :=
  let (myClass, σ1) := MyClass.ctor σ
  let result := myClass.messageLength
  (result, myClass.dtor σ1)

/-! ## Reading the buffer back -/

/-- The bytes of the text `"Hello from C++"`, without a terminator. -/
def helloBytes : List Nat :=
  "Hello from C++".toUTF8.data.toList.map UInt8.toNat

/-- The buffer read as a C string: the bytes before the first zero byte. -/
def cString (buf : List Nat) : List Nat :=
  buf.takeWhile (fun c => c ≠ 0)

/-- Index of the first zero byte of the buffer, if there is one. -/
def firstZero : List Nat → Option Nat
  | [] => none
  | c :: cs => if c = 0 then some 0 else (firstZero cs).map (fun k => k + 1)

/-! ## Arithmetic lemmas -/

theorem sizeSub_one_of_pos (w n : Nat) (h1 : 1 ≤ n) (h2 : n < 2 ^ w) :
    sizeSub w n 1 = n - 1 := by
  unfold sizeSub
  have hM : 1 < 2 ^ w := by omega
  rw [Nat.mod_eq_of_lt hM]
  have e : n + 2 ^ w - 1 = (n - 1) + 2 ^ w := by omega
  rw [e, Nat.add_mod_right]
  exact Nat.mod_eq_of_lt (by omega)

theorem sizeSub_zero_one (w : Nat) : sizeSub w 0 1 = SIZE_MAX w := by
  unfold sizeSub SIZE_MAX
  have hpos : 0 < 2 ^ w := Nat.pos_pow_of_pos w (by decide)
  rcases Nat.eq_or_lt_of_le (Nat.succ_le_of_lt hpos) with h | h
  · rw [← h]
  · rw [Nat.mod_eq_of_lt h, Nat.zero_add]
    exact Nat.mod_eq_of_lt (by omega)

/-! ## The text -/

theorem helloBytes_eq :
    helloBytes = [72, 101, 108, 108, 111, 32, 102, 114, 111, 109, 32, 67, 43, 43] := by
  decide

theorem helloBytes_length : helloBytes.length = 14 := by
  decide

theorem helloBytes_ne_zero : ∀ c ∈ helloBytes, c ≠ 0 := by
  decide

theorem c_str_hello : c_str "Hello from C++" = helloBytes ++ [0] := rfl

theorem strlen_append_zero (pre rest : List Nat) (h : ∀ c ∈ pre, c ≠ 0) :
    strlen (pre ++ 0 :: rest) = pre.length := by
  induction pre with
  | nil => simp [strlen]
  | cons c cs ih =>
    have hc : c ≠ 0 := h c (List.mem_cons_self c cs)
    have hcs : ∀ d ∈ cs, d ≠ 0 := fun d hd => h d (List.mem_cons_of_mem c hd)
    simp [strlen, hc, ih hcs]

/-! ## Lists under `set` -/

theorem set_eq_take_cons_drop (l : List Nat) (i c : Nat) (h : i < l.length) :
    l.set i c = l.take i ++ c :: l.drop (i + 1) := by
  induction l generalizing i with
  | nil => simp at h
  | cons x xs ih =>
    cases i with
    | zero => simp
    | succ j =>
      have hj : j < xs.length := by simpa using h
      simp [ih j hj]

theorem take_succ_set (l : List Nat) (i c : Nat) (h : i < l.length) :
    (l.set i c).take (i + 1) = l.take i ++ [c] := by
  induction l generalizing i with
  | nil => simp at h
  | cons x xs ih =>
    cases i with
    | zero => simp
    | succ j =>
      have hj : j < xs.length := by simpa using h
      simp [ih j hj]

theorem drop_set_lt (l : List Nat) (i c n : Nat) (h : i < n) :
    (l.set i c).drop n = l.drop n := by
  induction l generalizing i n with
  | nil => simp
  | cons x xs ih =>
    cases n with
    | zero => omega
    | succ m =>
      cases i with
      | zero => simp
      | succ j => simpa using ih j m (by omega)

/-! ## Stores and copies that stay inside the buffer -/

theorem storeByte_ok (i b : Nat) (σ : World) (h : i < σ.buf.length) :
    storeByte i b σ = .ok ⟨σ.stdout, σ.buf.set i b, σ.stores ++ [i]⟩ := by
  simp [storeByte, h]

theorem storeByte_fault (i b : Nat) (σ : World) (h : σ.buf.length ≤ i) :
    storeByte i b σ = .error (.outOfBoundsStore i) := by
  simp [storeByte, Nat.not_lt.mpr h]

theorem strcpyFrom_ok (pre rest : List Nat) (hpre : ∀ c ∈ pre, c ≠ 0) (i : Nat) (σ : World)
    (h : i + pre.length < σ.buf.length) :
    strcpyFrom (pre ++ 0 :: rest) i σ =
      .ok ⟨σ.stdout, σ.buf.take i ++ (pre ++ 0 :: σ.buf.drop (i + pre.length + 1)),
        σ.stores ++ List.range' i (pre.length + 1)⟩ := by
  induction pre generalizing i σ with
  | nil =>
    have hi : i < σ.buf.length := by simpa using h
    simp [strcpyFrom, storeByte_ok i 0 σ hi, set_eq_take_cons_drop σ.buf i 0 hi]
  | cons c cs ih =>
    have hc : c ≠ 0 := hpre c (List.mem_cons_self c cs)
    have hcs : ∀ d ∈ cs, d ≠ 0 := fun d hd => hpre d (List.mem_cons_of_mem c hd)
    have hlen : i + (cs.length + 1) < σ.buf.length := by simpa using h
    have hi : i < σ.buf.length := by omega
    have hstep := ih hcs (i + 1) ⟨σ.stdout, σ.buf.set i c, σ.stores ++ [i]⟩
      (by simp only [List.length_set]; omega)
    rw [List.cons_append, strcpyFrom, storeByte_ok i c σ hi]
    simp only [if_neg hc]
    rw [hstep]
    have e1 : i + 1 + cs.length + 1 = i + (cs.length + 1) + 1 := by omega
    simp only [take_succ_set σ.buf i c hi,
      drop_set_lt σ.buf i c (i + 1 + cs.length + 1) (by omega), List.length_cons]
    rw [e1]
    simp [List.range'_succ]

theorem strncpyFrom_ok (n : Nat) (src : List Nat) (i : Nat) (σ : World)
    (hn : n ≤ src.length) (hsrc : ∀ c ∈ src.take n, c ≠ 0) (h : i + n ≤ σ.buf.length) :
    strncpyFrom src i n σ =
      .ok ⟨σ.stdout, σ.buf.take i ++ (src.take n ++ σ.buf.drop (i + n)),
        σ.stores ++ List.range' i n⟩ := by
  induction n generalizing src i σ with
  | zero =>
    cases src <;> simp [strncpyFrom]
  | succ m ih =>
    cases src with
    | nil => simp at hn
    | cons c cs =>
      have hc : c ≠ 0 := hsrc c (by simp)
      have hcs : ∀ d ∈ cs.take m, d ≠ 0 := fun d hd => hsrc d (by simp [hd])
      have hm : m ≤ cs.length := by simpa using hn
      have hi : i < σ.buf.length := by omega
      have hstep := ih cs (i + 1) ⟨σ.stdout, σ.buf.set i c, σ.stores ++ [i]⟩ hm hcs
        (by simp only [List.length_set]; omega)
      rw [strncpyFrom, storeByte_ok i c σ hi]
      simp only [if_neg hc]
      rw [hstep]
      have e1 : i + 1 + m = i + (m + 1) := by omega
      simp only [take_succ_set σ.buf i c hi, drop_set_lt σ.buf i c (i + 1 + m) (by omega)]
      rw [e1]
      simp [List.range'_succ]

/-! ## Copies that run past the end of the buffer -/

theorem padZero_fault (n i : Nat) (σ : World) (h1 : i ≤ σ.buf.length)
    (h2 : σ.buf.length < i + n) :
    padZero i n σ = .error (.outOfBoundsStore σ.buf.length) := by
  induction n generalizing i σ with
  | zero => omega
  | succ m ih =>
    rcases Nat.lt_or_ge i σ.buf.length with hi | hi
    · have hstep := ih (i + 1) ⟨σ.stdout, σ.buf.set i 0, σ.stores ++ [i]⟩
        (by simp only [List.length_set]; omega) (by simp only [List.length_set]; omega)
      rw [padZero, storeByte_ok i 0 σ hi]
      simp only []
      rw [hstep]
      simp only [List.length_set]
    · have e : i = σ.buf.length := by omega
      simp only [padZero, storeByte_fault i 0 σ hi]
      rw [e]

theorem strncpyFrom_fault (src : List Nat) (hsrc : 0 ∈ src) (n i : Nat) (σ : World)
    (h1 : i ≤ σ.buf.length) (h2 : σ.buf.length < i + n) :
    strncpyFrom src i n σ = .error (.outOfBoundsStore σ.buf.length) := by
  induction src generalizing n i σ with
  | nil => simp at hsrc
  | cons c cs ih =>
    cases n with
    | zero => omega
    | succ m =>
      rcases Nat.lt_or_ge i σ.buf.length with hi | hi
      · by_cases hc : c = 0
        · have hpad := padZero_fault m (i + 1) ⟨σ.stdout, σ.buf.set i c, σ.stores ++ [i]⟩
            (by simp only [List.length_set]; omega) (by simp only [List.length_set]; omega)
          rw [strncpyFrom, storeByte_ok i c σ hi]
          simp only [if_pos hc]
          rw [hpad]
          simp only [List.length_set]
        · have hcs : 0 ∈ cs := by
            rcases List.mem_cons.mp hsrc with h0 | h0
            · exact absurd h0.symm hc
            · exact h0
          have hstep := ih hcs m (i + 1) ⟨σ.stdout, σ.buf.set i c, σ.stores ++ [i]⟩
            (by simp only [List.length_set]; omega) (by simp only [List.length_set]; omega)
          rw [strncpyFrom, storeByte_ok i c σ hi]
          simp only [if_neg hc]
          rw [hstep]
          simp only [List.length_set]
      · have e : i = σ.buf.length := by omega
        simp only [strncpyFrom, storeByte_fault i c σ hi]
        rw [e]

/-! ## What `fillString` leaves behind -/

theorem fillString_unfold (w length : Nat) (σ : World) :
    fillString w length σ =
      match (if 14 < length then
          strcpy (helloBytes ++ [0]) ⟨σ.stdout ++ ["Constructor called"], σ.buf, σ.stores⟩
        else
          match strncpy (helloBytes ++ [0]) (sizeSub w length 1)
              ⟨σ.stdout ++ ["Constructor called"], σ.buf, σ.stores⟩ with
          | .error e => .error e
          | .ok σ2 => storeByte (sizeSub w length 1) 0 σ2) with
      | .error e => .error e
      | .ok σ3 => .ok ⟨σ3.stdout ++ ["Destructor called"], σ3.buf, σ3.stores⟩ := by
  have hlen : strlen (helloBytes ++ [0]) = 14 := by decide
  simp only [fillString, MyClass.ctor, MyClass.getString, MyClass.dtor, c_str_hello, hlen]

theorem fillString_fits (w cap : Nat) (σ : World) (h1 : 14 < cap) (h3 : cap ≤ σ.buf.length) :
    fillString w cap σ =
      .ok ⟨σ.stdout ++ ["Constructor called", "Destructor called"],
        helloBytes ++ 0 :: σ.buf.drop 15, σ.stores ++ List.range 15⟩ := by
  rw [fillString_unfold, if_pos h1, strcpy,
    strcpyFrom_ok helloBytes [] helloBytes_ne_zero 0 _ (by simp only [helloBytes_length]; omega)]
  simp [helloBytes_length, List.range_eq_range']

theorem fillString_truncates (w cap : Nat) (σ : World) (h1 : 1 ≤ cap) (h2 : cap ≤ 14)
    (hw : cap < 2 ^ w) (h3 : cap ≤ σ.buf.length) :
    fillString w cap σ =
      .ok ⟨σ.stdout ++ ["Constructor called", "Destructor called"],
        helloBytes.take (cap - 1) ++ 0 :: σ.buf.drop cap, σ.stores ++ List.range cap⟩ := by
  have hlen := helloBytes_length
  have htake : (helloBytes ++ [0]).take (cap - 1) = helloBytes.take (cap - 1) :=
    List.take_append_of_le_length (by omega)
  have hnz : ∀ c ∈ (helloBytes ++ [0]).take (cap - 1), c ≠ 0 := by
    rw [htake]
    exact fun c hc => helloBytes_ne_zero c (List.mem_of_mem_take hc)
  rw [fillString_unfold, if_neg (by omega), sizeSub_one_of_pos w cap h1 hw, strncpy,
    strncpyFrom_ok (cap - 1) (helloBytes ++ [0]) 0 _ (by simp only [List.length_append, hlen]; omega)
      hnz (by simp only []; omega)]
  simp only [htake]
  have hA : (helloBytes.take (cap - 1)).length = cap - 1 := by
    rw [List.length_take, hlen]; omega
  rw [storeByte_ok]
  · simp only [List.take_zero, List.nil_append, Nat.zero_add]
    rw [set_eq_take_cons_drop]
    · have e1 : List.take (cap - 1) (helloBytes.take (cap - 1) ++ σ.buf.drop (cap - 1))
          = helloBytes.take (cap - 1) := by
        rw [List.take_append_of_le_length (by omega), List.take_of_length_le (by omega)]
      have e2 : List.drop (cap - 1 + 1) (helloBytes.take (cap - 1) ++ σ.buf.drop (cap - 1))
          = σ.buf.drop cap := by
        rw [List.drop_append_eq_append_drop, List.drop_eq_nil_of_le (by omega), hA,
          List.nil_append, List.drop_drop]
        congr 1
        omega
      rw [e1, e2]
      have hr : List.range' 0 cap = List.range' 0 (cap - 1) ++ [cap - 1] := by
        obtain ⟨k, rfl⟩ := Nat.exists_eq_succ_of_ne_zero (show cap ≠ 0 by omega)
        simp [← List.range_eq_range', List.range_succ]
      simp only [List.range_eq_range', World.mk.injEq, true_and, Except.ok.injEq, hr]
      constructor <;> simp
    · simp only [List.length_append, List.length_drop, hA]
      omega
  · simp only [List.length_append, List.length_drop, hA, List.take_zero, List.length_nil]
    omega

theorem fillString_ok (w cap : Nat) (σ : World) (h1 : 1 ≤ cap) (hw : cap < 2 ^ w)
    (h3 : cap ≤ σ.buf.length) :
    fillString w cap σ =
      .ok ⟨σ.stdout ++ ["Constructor called", "Destructor called"],
        helloBytes.take (min 14 (cap - 1)) ++ 0 :: σ.buf.drop (min 14 (cap - 1) + 1),
        σ.stores ++ List.range (min 14 (cap - 1) + 1)⟩ := by
  rcases Nat.lt_or_ge 14 cap with h | h
  · have e : min 14 (cap - 1) = 14 := by omega
    rw [e, fillString_fits w cap σ h h3, List.take_of_length_le (by rw [helloBytes_length])]
  · have e : min 14 (cap - 1) = cap - 1 := by omega
    have e2 : cap - 1 + 1 = cap := by omega
    rw [e, e2, fillString_truncates w cap σ h1 h hw h3]

/-! ## Copies that stay inside the buffer succeed -/

theorem padZero_isOk (n i : Nat) (σ : World) (h : i + n ≤ σ.buf.length) :
    ∃ τ, padZero i n σ = .ok τ ∧ τ.buf.length = σ.buf.length := by
  induction n generalizing i σ with
  | zero => exact ⟨σ, by simp only [padZero], rfl⟩
  | succ m ih =>
    have hi : i < σ.buf.length := by omega
    obtain ⟨τ, hτ, hl⟩ := ih (i + 1) ⟨σ.stdout, σ.buf.set i 0, σ.stores ++ [i]⟩
      (by simp only [List.length_set]; omega)
    refine ⟨τ, ?_, ?_⟩
    · rw [padZero, storeByte_ok i 0 σ hi]
      exact hτ
    · rw [hl, List.length_set]

theorem strncpyFrom_isOk (src : List Nat) (hsrc : 0 ∈ src) (n i : Nat) (σ : World)
    (h : i + n ≤ σ.buf.length) :
    ∃ τ, strncpyFrom src i n σ = .ok τ ∧ τ.buf.length = σ.buf.length := by
  induction src generalizing n i σ with
  | nil => simp at hsrc
  | cons c cs ih =>
    cases n with
    | zero => exact ⟨σ, by simp only [strncpyFrom], rfl⟩
    | succ m =>
      have hi : i < σ.buf.length := by omega
      have hlen : i + 1 + m ≤ (World.mk σ.stdout (σ.buf.set i c) (σ.stores ++ [i])).buf.length := by
        simp only [List.length_set]; omega
      by_cases hc : c = 0
      · obtain ⟨τ, hτ, hl⟩ := padZero_isOk m (i + 1) ⟨σ.stdout, σ.buf.set i c, σ.stores ++ [i]⟩ hlen
        refine ⟨τ, ?_, ?_⟩
        · rw [strncpyFrom, storeByte_ok i c σ hi]
          simp only [if_pos hc]
          exact hτ
        · rw [hl, List.length_set]
      · have hcs : 0 ∈ cs := by
          rcases List.mem_cons.mp hsrc with h0 | h0
          · exact absurd h0.symm hc
          · exact h0
        obtain ⟨τ, hτ, hl⟩ := ih hcs m (i + 1) ⟨σ.stdout, σ.buf.set i c, σ.stores ++ [i]⟩ hlen
        refine ⟨τ, ?_, ?_⟩
        · rw [strncpyFrom, storeByte_ok i c σ hi]
          simp only [if_neg hc]
          exact hτ
        · rw [hl, List.length_set]

theorem fillString_zero_fault (w : Nat) (σ : World) (h : σ.buf.length ≤ SIZE_MAX w) :
    fillString w 0 σ = .error (.outOfBoundsStore σ.buf.length) := by
  have h0 : (0 : Nat) ∈ helloBytes ++ [0] := by simp
  rw [fillString_unfold, if_neg (by omega), sizeSub_zero_one, strncpy]
  rcases Nat.lt_or_ge σ.buf.length (SIZE_MAX w) with hlt | hge
  · rw [strncpyFrom_fault (helloBytes ++ [0]) h0 (SIZE_MAX w) 0 _ (Nat.zero_le _)
      (by simp only [Nat.zero_add]; exact hlt)]
  · have he : SIZE_MAX w = σ.buf.length := by omega
    obtain ⟨τ, hτ, hl⟩ := strncpyFrom_isOk (helloBytes ++ [0]) h0 (SIZE_MAX w) 0
      ⟨σ.stdout ++ ["Constructor called"], σ.buf, σ.stores⟩
      (by show 0 + SIZE_MAX w ≤ σ.buf.length; omega)
    have hl2 : τ.buf.length = σ.buf.length := hl
    rw [hτ]
    simp only []
    rw [storeByte_fault (SIZE_MAX w) 0 τ (by rw [hl2]; omega), he]

/-! ## Reading a C string back -/

theorem firstZero_append_zero (pre rest : List Nat) (h : ∀ c ∈ pre, c ≠ 0) :
    firstZero (pre ++ 0 :: rest) = some pre.length := by
  induction pre with
  | nil => simp [firstZero]
  | cons c cs ih =>
    have hc : c ≠ 0 := h c (List.mem_cons_self c cs)
    have hcs : ∀ d ∈ cs, d ≠ 0 := fun d hd => h d (List.mem_cons_of_mem c hd)
    simp [firstZero, hc, ih hcs]

theorem take_helloBytes_ne_zero (k : Nat) : ∀ c ∈ helloBytes.take k, c ≠ 0 :=
  fun c hc => helloBytes_ne_zero c (List.mem_of_mem_take hc)

theorem take_helloBytes_length (k : Nat) (h : k ≤ 14) : (helloBytes.take k).length = k := by
  rw [List.length_take, helloBytes_length]
  omega


theorem fillString_ok_strlen (w cap : Nat) (σ : World) (h1 : 1 ≤ cap) (hw : cap < 2 ^ w)
    (hbuf : cap ≤ σ.buf.length) :
    ∃ τ, fillString w cap σ = .ok τ ∧ strlen τ.buf = min 14 (cap - 1) := by
  refine ⟨_, fillString_ok w cap σ h1 hw hbuf, ?_⟩
  show strlen (helloBytes.take (min 14 (cap - 1)) ++ 0 :: σ.buf.drop (min 14 (cap - 1) + 1))
    = min 14 (cap - 1)
  rw [strlen_append_zero _ _ (take_helloBytes_ne_zero _), take_helloBytes_length _ (by omega)]

theorem getMessageLength_fst (σ : World) : (getMessageLength σ).1 = 14 := by
  show "Hello from C++".utf8ByteSize = 14
  decide

theorem wrapInt_of_isInt (x : Int) (h : isInt x) : wrapInt x = x := by
  unfold isInt INT_MIN INT_MAX at h
  unfold wrapInt
  norm_num at h ⊢
  omega

theorem wrapInt_spec (x : Int) :
    isInt (wrapInt x) ∧ (wrapInt x - x) % 2 ^ 32 = 0 ∧ (wrapInt x = x ↔ isInt x) := by
  unfold isInt INT_MIN INT_MAX wrapInt
  norm_num
  omega

/-! ## The contract of `fillString` -/

/-- C1: for every capacity of at least 15 and every buffer of at least that
many bytes, `fillString` succeeds and leaves the 14 bytes of
`"Hello from C++"` at indices 0 to 13 and a zero byte at index 14. -/
theorem fillString_copies_full_text (w cap : Nat) (σ : World) (hcap : 15 ≤ cap)
    (hbuf : cap ≤ σ.buf.length) :
    ∃ τ, fillString w cap σ = .ok τ ∧ τ.buf.take 14 = helloBytes ∧ helloBytes.length = 14 ∧
      τ.buf[14]? = some 0 := by
  refine ⟨_, fillString_fits w cap σ (by omega) hbuf, ?_, helloBytes_length, ?_⟩
  · exact List.take_left' helloBytes_length
  · show (helloBytes ++ 0 :: σ.buf.drop 15)[14]? = some 0
    rw [List.getElem?_append_right (by rw [helloBytes_length]), helloBytes_length]
    simp

/-- Witness for C1 at the boundary capacity 15, on a 15 byte buffer. -/
theorem fillString_copies_full_text_witness :
    (15 ≤ 15 ∧ 15 ≤ (World.mk [] (List.replicate 15 170) []).buf.length) ∧
      ∃ τ, fillString 64 15 (World.mk [] (List.replicate 15 170) []) = .ok τ ∧
        τ.buf.take 14 = helloBytes ∧ helloBytes.length = 14 ∧ τ.buf[14]? = some 0 :=
  ⟨⟨by decide, by decide⟩,
    fillString_copies_full_text 64 15 (World.mk [] (List.replicate 15 170) [])
      (by decide) (by decide)⟩

/-- C2: for every capacity from 1 to 14 and every buffer of at least that many
bytes, `fillString` succeeds and leaves the first `capacity - 1` bytes of
`"Hello from C++"` at indices 0 to `capacity - 2` and a zero byte at index
`capacity - 1`. -/
theorem fillString_truncates_text (w cap : Nat) (σ : World) (h1 : 1 ≤ cap) (h2 : cap ≤ 14)
    (hw : cap < 2 ^ w) (hbuf : cap ≤ σ.buf.length) :
    ∃ τ, fillString w cap σ = .ok τ ∧ τ.buf.take (cap - 1) = helloBytes.take (cap - 1) ∧
      (helloBytes.take (cap - 1)).length = cap - 1 ∧ τ.buf[cap - 1]? = some 0 := by
  have hA := take_helloBytes_length (cap - 1) (by omega)
  refine ⟨_, fillString_truncates w cap σ h1 h2 hw hbuf, ?_, hA, ?_⟩
  · exact List.take_left' hA
  · show (helloBytes.take (cap - 1) ++ 0 :: σ.buf.drop cap)[cap - 1]? = some 0
    rw [List.getElem?_append_right (by rw [hA]), hA, Nat.sub_self]
    simp

/-- Witness for C2 at capacity 5, on a 6 byte buffer. -/
theorem fillString_truncates_text_witness :
    (1 ≤ 5 ∧ 5 ≤ 14 ∧ 5 < 2 ^ 64 ∧ 5 ≤ (World.mk [] [1, 2, 3, 4, 5, 6] []).buf.length) ∧
      ∃ τ, fillString 64 5 (World.mk [] [1, 2, 3, 4, 5, 6] []) = .ok τ ∧
        τ.buf.take (5 - 1) = helloBytes.take (5 - 1) ∧
        (helloBytes.take (5 - 1)).length = 5 - 1 ∧ τ.buf[5 - 1]? = some 0 :=
  ⟨⟨by decide, by decide, by decide, by decide⟩,
    fillString_truncates_text 64 5 (World.mk [] [1, 2, 3, 4, 5, 6] [])
      (by decide) (by decide) (by decide) (by decide)⟩

/-- C3: for every capacity of at least 1 and every buffer of at least that
many bytes, whatever it held before, `fillString` succeeds and the first zero
byte of the buffer is then at index `min 14 (capacity - 1)`, which is below the
capacity; the buffer read as a C string has length at most `capacity - 1`. -/
theorem fillString_null_terminates (w cap : Nat) (σ : World) (h1 : 1 ≤ cap) (hw : cap < 2 ^ w)
    (hbuf : cap ≤ σ.buf.length) :
    ∃ τ, fillString w cap σ = .ok τ ∧ firstZero τ.buf = some (min 14 (cap - 1)) ∧
      min 14 (cap - 1) < cap ∧ strlen τ.buf = min 14 (cap - 1) ∧ strlen τ.buf ≤ cap - 1 ∧
      (cString τ.buf).length ≤ cap - 1 := by
  have hA := take_helloBytes_length (min 14 (cap - 1)) (by omega)
  have hnz := take_helloBytes_ne_zero (min 14 (cap - 1))
  have hs : strlen (helloBytes.take (min 14 (cap - 1)) ++ 0 :: σ.buf.drop (min 14 (cap - 1) + 1))
      = min 14 (cap - 1) := by
    rw [strlen_append_zero _ _ hnz, hA]
  have hc : cString (helloBytes.take (min 14 (cap - 1)) ++ 0 :: σ.buf.drop (min 14 (cap - 1) + 1))
      = helloBytes.take (min 14 (cap - 1)) := by
    unfold cString
    rw [List.takeWhile_append_of_pos (by simpa using hnz)]
    simp
  refine ⟨_, fillString_ok w cap σ h1 hw hbuf, ?_, by omega, hs, ?_, ?_⟩
  · show firstZero (helloBytes.take (min 14 (cap - 1)) ++ 0 :: σ.buf.drop (min 14 (cap - 1) + 1))
      = some (min 14 (cap - 1))
    rw [firstZero_append_zero _ _ hnz, hA]
  · show strlen (helloBytes.take (min 14 (cap - 1)) ++ 0 :: σ.buf.drop (min 14 (cap - 1) + 1))
      ≤ cap - 1
    rw [hs]
    omega
  · show (cString (helloBytes.take (min 14 (cap - 1)) ++ 0 :: σ.buf.drop (min 14 (cap - 1) + 1))).length
      ≤ cap - 1
    rw [hc, hA]
    omega

/-- Witness for C3 at capacity 3, on a buffer that held zero bytes and text. -/
theorem fillString_null_terminates_witness :
    (1 ≤ 3 ∧ 3 < 2 ^ 64 ∧ 3 ≤ (World.mk [] [0, 65, 66, 67] []).buf.length) ∧
      ∃ τ, fillString 64 3 (World.mk [] [0, 65, 66, 67] []) = .ok τ ∧
        firstZero τ.buf = some (min 14 (3 - 1)) ∧ min 14 (3 - 1) < 3 ∧
        strlen τ.buf = min 14 (3 - 1) ∧ strlen τ.buf ≤ 3 - 1 ∧ (cString τ.buf).length ≤ 3 - 1 :=
  ⟨⟨by decide, by decide, by decide⟩,
    fillString_null_terminates 64 3 (World.mk [] [0, 65, 66, 67] [])
      (by decide) (by decide) (by decide)⟩

/-- C4: when the capacity is at least 1 and the buffer has at least that many
bytes, `fillString` succeeds, every store it performs is at an index below the
capacity, and no fault is reached: a fault needs a violated size contract. -/
theorem fillString_stores_in_bounds (w cap : Nat) (σ : World) (h1 : 1 ≤ cap) (hw : cap < 2 ^ w)
    (hbuf : cap ≤ σ.buf.length) :
    (∃ τ ws, fillString w cap σ = .ok τ ∧ τ.stores = σ.stores ++ ws ∧ ∀ i ∈ ws, i < cap) ∧
    (∀ e, fillString w cap σ ≠ .error e) := by
  have hok := fillString_ok w cap σ h1 hw hbuf
  constructor
  · refine ⟨_, List.range (min 14 (cap - 1) + 1), hok, rfl, ?_⟩
    intro i hi
    have := List.mem_range.mp hi
    omega
  · intro e he
    rw [hok] at he
    cases he

/-- Witness for C4 at capacity 20, on a 32 byte buffer. -/
theorem fillString_stores_in_bounds_witness :
    (1 ≤ 20 ∧ 20 < 2 ^ 64 ∧ 20 ≤ (World.mk [] (List.replicate 32 7) []).buf.length) ∧
      (∃ τ ws, fillString 64 20 (World.mk [] (List.replicate 32 7) []) = .ok τ ∧
        τ.stores = (World.mk [] (List.replicate 32 7) []).stores ++ ws ∧ ∀ i ∈ ws, i < 20) ∧
      (∀ e, fillString 64 20 (World.mk [] (List.replicate 32 7) []) ≠ .error e) :=
  ⟨⟨by decide, by decide, by decide⟩,
    fillString_stores_in_bounds 64 20 (World.mk [] (List.replicate 32 7) [])
      (by decide) (by decide) (by decide)⟩

/-- C5: with capacity 0 the comparison `14 < 0` fails, `length - 1` wraps to the
largest `size_t` value, which is both the count passed to `strncpy` and the
index of the terminator store, and on every buffer smaller than that value
`fillString` faults with an out-of-bounds store. -/
theorem fillString_zero_capacity (w : Nat) (σ : World) (hbuf : σ.buf.length < sizeSub w 0 1) :
    ¬ strlen (c_str (MyClass.ctor σ).1.getString) < 0 ∧
    sizeSub w 0 1 = SIZE_MAX w ∧ SIZE_MAX w = 2 ^ w - 1 ∧
    fillString w 0 σ =
      ((strncpy (c_str (MyClass.ctor σ).1.getString) (SIZE_MAX w) (MyClass.ctor σ).2).bind
        (fun σ2 => storeByte (SIZE_MAX w) 0 σ2)).map (fun σ3 => (MyClass.ctor σ).1.dtor σ3) ∧
    fillString w 0 σ = .error (.outOfBoundsStore σ.buf.length) := by
  have hsz := sizeSub_zero_one w
  refine ⟨Nat.not_lt_zero _, hsz, rfl, ?_, fillString_zero_fault w σ (by omega)⟩
  have hlen : strlen (helloBytes ++ [0]) = 14 := by decide
  simp only [fillString, MyClass.ctor, MyClass.getString, c_str_hello, hlen, hsz]
  rw [if_neg (by omega)]
  cases strncpy (helloBytes ++ [0]) (SIZE_MAX w) ⟨σ.stdout ++ ["Constructor called"], σ.buf, σ.stores⟩ with
  | error e => rfl
  | ok σ2 =>
    cases hs : storeByte (SIZE_MAX w) 0 σ2 with
    | error e => simp [Except.bind, Except.map, hs]
    | ok σ3 => simp [Except.bind, Except.map, hs]

/-- Witness for C5 on a 20 byte buffer with a 64 bit `size_t`. -/
theorem fillString_zero_capacity_witness :
    (World.mk [] (List.replicate 20 0) []).buf.length < sizeSub 64 0 1 ∧
      fillString 64 0 (World.mk [] (List.replicate 20 0) []) = .error (.outOfBoundsStore 20) :=
  ⟨by decide, (fillString_zero_capacity 64 (World.mk [] (List.replicate 20 0) []) (by decide)).2.2.2.2⟩


/-! ## `getMessageLength` and `addNumbers` -/

/-- C6: `getMessageLength` returns 14 in every state, and 14 is the number of
bytes of the text `"Hello from C++"`, the terminator of its C string not
counted. -/
theorem getMessageLength_eq_14 (σ : World) :
    (getMessageLength σ).1 = 14 ∧ "Hello from C++".utf8ByteSize = 14 ∧ helloBytes.length = 14 ∧
      (c_str "Hello from C++").length = 14 + 1 :=
  ⟨getMessageLength_fst σ, by decide, helloBytes_length, by decide⟩

/-- C7: for `int` values `a` and `b` whose mathematical sum is an `int` value,
`addNumbers` returns exactly that sum. -/
theorem addNumbers_exact (a b : Int) (σ : World) (_ha : isInt a) (_hb : isInt b)
    (hsum : isInt (a + b)) : (addNumbers a b σ).1 = a + b :=
  wrapInt_of_isInt (a + b) hsum

/-- Witness for C7 at the inputs `(2, 3)`. -/
theorem addNumbers_exact_witness :
    (isInt 2 ∧ isInt 3 ∧ isInt (2 + 3)) ∧ (addNumbers 2 3 (World.mk [] [] [])).1 = 2 + 3 :=
  ⟨⟨by decide, by decide, by decide⟩,
    addNumbers_exact 2 3 (World.mk [] [] []) (by decide) (by decide) (by decide)⟩

/-- Counterexample to C8: `2147483647` and `1` are `int` values, and the result
of `addNumbers` on them is not their sum. -/
theorem addNumbers_overflow_counterexample :
    isInt 2147483647 ∧ isInt 1 ∧
      (addNumbers 2147483647 1 (World.mk [] [] [])).1 ≠ 2147483647 + 1 ∧
      (addNumbers 2147483647 1 (World.mk [] [] [])).1 = -2147483648 := by
  decide

/-- C8, amended: for all `int` values `a` and `b`, `addNumbers` returns an `int`
value congruent to `a + b` modulo `2 ^ 32` and leaves the state unchanged; the
result is `a + b` exactly when `a + b` is an `int` value. -/
theorem addNumbers_wraps (a b : Int) (σ : World) (_ha : isInt a) (_hb : isInt b) :
    isInt (addNumbers a b σ).1 ∧ ((addNumbers a b σ).1 - (a + b)) % 2 ^ 32 = 0 ∧
      ((addNumbers a b σ).1 = a + b ↔ isInt (a + b)) ∧ (addNumbers a b σ).2 = σ :=
  ⟨(wrapInt_spec (a + b)).1, (wrapInt_spec (a + b)).2.1, (wrapInt_spec (a + b)).2.2, rfl⟩

/-- Witness for the amended C8 at the overflowing inputs `(2147483647, 1)`. -/
theorem addNumbers_wraps_witness :
    (isInt 2147483647 ∧ isInt 1) ∧
      isInt (addNumbers 2147483647 1 (World.mk [] [] [])).1 ∧
      ((addNumbers 2147483647 1 (World.mk [] [] [])).1 - (2147483647 + 1)) % 2 ^ 32 = 0 ∧
      ((addNumbers 2147483647 1 (World.mk [] [] [])).1 = 2147483647 + 1 ↔
        isInt (2147483647 + 1)) ∧
      (addNumbers 2147483647 1 (World.mk [] [] [])).2 = World.mk [] [] [] :=
  ⟨⟨by decide, by decide⟩,
    addNumbers_wraps 2147483647 1 (World.mk [] [] []) (by decide) (by decide)⟩

/-! ## Relations between calls -/

/-- C9: for every capacity of at least 1 and every buffer of at least that many
bytes, a second `fillString` leaves the buffer as the first one left it; and
the values returned by `getMessageLength` and by `addNumbers` on given
arguments are the same in every state. -/
theorem calls_idempotent (w cap : Nat) (σ : World) (h1 : 1 ≤ cap) (hw : cap < 2 ^ w)
    (hbuf : cap ≤ σ.buf.length) :
    (∃ τ1 τ2, fillString w cap σ = .ok τ1 ∧ fillString w cap τ1 = .ok τ2 ∧ τ2.buf = τ1.buf) ∧
    (∀ σ1 σ2 : World, (getMessageLength σ1).1 = (getMessageLength σ2).1) ∧
    (∀ (a b : Int) (σ1 σ2 : World), (addNumbers a b σ1).1 = (addNumbers a b σ2).1) := by
  refine ⟨?_, fun σ1 σ2 => by rw [getMessageLength_fst, getMessageLength_fst], fun _ _ _ _ => rfl⟩
  have hA := take_helloBytes_length (min 14 (cap - 1)) (by omega)
  have hlen1 : cap ≤ (helloBytes.take (min 14 (cap - 1)) ++
      0 :: σ.buf.drop (min 14 (cap - 1) + 1)).length := by
    simp only [List.length_append, List.length_cons, List.length_drop, hA]
    omega
  refine ⟨_, _, fillString_ok w cap σ h1 hw hbuf, fillString_ok w cap _ h1 hw hlen1, ?_⟩
  show helloBytes.take (min 14 (cap - 1)) ++ 0 :: List.drop (min 14 (cap - 1) + 1)
      (helloBytes.take (min 14 (cap - 1)) ++ 0 :: σ.buf.drop (min 14 (cap - 1) + 1))
    = helloBytes.take (min 14 (cap - 1)) ++ 0 :: σ.buf.drop (min 14 (cap - 1) + 1)
  congr 2
  rw [List.drop_append_eq_append_drop, List.drop_eq_nil_of_le (by omega), hA, List.nil_append]
  have e : min 14 (cap - 1) + 1 - min 14 (cap - 1) = 1 := by omega
  rw [e]
  rfl

/-- Witness for C9 at capacity 5, on an 8 byte buffer. -/
theorem calls_idempotent_witness :
    (1 ≤ 5 ∧ 5 < 2 ^ 64 ∧ 5 ≤ (World.mk [] [1, 2, 3, 4, 5, 6, 7, 8] []).buf.length) ∧
      (∃ τ1 τ2, fillString 64 5 (World.mk [] [1, 2, 3, 4, 5, 6, 7, 8] []) = .ok τ1 ∧
        fillString 64 5 τ1 = .ok τ2 ∧ τ2.buf = τ1.buf) ∧
      (∀ σ1 σ2 : World, (getMessageLength σ1).1 = (getMessageLength σ2).1) ∧
      (∀ (a b : Int) (σ1 σ2 : World), (addNumbers a b σ1).1 = (addNumbers a b σ2).1) :=
  ⟨⟨by decide, by decide, by decide⟩,
    calls_idempotent 64 5 (World.mk [] [1, 2, 3, 4, 5, 6, 7, 8] [])
      (by decide) (by decide) (by decide)⟩

/-- C10: on a buffer of at least `capacity` bytes (whose size, like that of
every object, is a `size_t` value), the C string left by `fillString` has the
length `getMessageLength` returns if and only if the capacity is at least that
length plus 1; and for a capacity from 1 up to that length, the C string left
has length `capacity - 1`, which is less. -/
theorem full_text_iff_capacity (w cap : Nat) (σ : World) (hbuf : cap ≤ σ.buf.length)
    (hsize : σ.buf.length ≤ SIZE_MAX w) :
    ((∃ τ, fillString w cap σ = .ok τ ∧ strlen τ.buf = (getMessageLength σ).1) ↔
      (getMessageLength σ).1 + 1 ≤ cap) ∧
    (1 ≤ cap → cap ≤ (getMessageLength σ).1 →
      ∃ τ, fillString w cap σ = .ok τ ∧ strlen τ.buf = cap - 1 ∧
        cap - 1 < (getMessageLength σ).1) := by
  have hpos : 0 < 2 ^ w := Nat.pos_pow_of_pos w (by decide)
  have hw : cap < 2 ^ w := by
    unfold SIZE_MAX at hsize
    omega
  rw [getMessageLength_fst]
  refine ⟨⟨?_, ?_⟩, ?_⟩
  · rintro ⟨τ, hτ, hs⟩
    by_contra hlt
    rcases Nat.eq_zero_or_pos cap with h0 | h1
    · subst h0
      rw [fillString_zero_fault w σ hsize] at hτ
      cases hτ
    · obtain ⟨τ1, hτ1, hs1⟩ := fillString_ok_strlen w cap σ h1 hw hbuf
      rw [hτ1] at hτ
      cases hτ
      omega
  · intro h15
    obtain ⟨τ, hτ, hs⟩ := fillString_ok_strlen w cap σ (by omega) hw hbuf
    exact ⟨τ, hτ, by omega⟩
  · intro h1 h14
    obtain ⟨τ, hτ, hs⟩ := fillString_ok_strlen w cap σ h1 hw hbuf
    exact ⟨τ, hτ, by omega, by omega⟩

/-- Witness for C10: the equivalence at capacity 15 on a 16 byte buffer, and
the truncated length at capacity 5 on an 8 byte buffer. -/
theorem full_text_iff_capacity_witness :
    ((15 ≤ (World.mk [] (List.replicate 16 1) []).buf.length ∧
        (World.mk [] (List.replicate 16 1) []).buf.length ≤ SIZE_MAX 64) ∧
      ((∃ τ, fillString 64 15 (World.mk [] (List.replicate 16 1) []) = .ok τ ∧
          strlen τ.buf = (getMessageLength (World.mk [] (List.replicate 16 1) [])).1) ↔
        (getMessageLength (World.mk [] (List.replicate 16 1) [])).1 + 1 ≤ 15)) ∧
    ((5 ≤ (World.mk [] (List.replicate 8 1) []).buf.length ∧
        (World.mk [] (List.replicate 8 1) []).buf.length ≤ SIZE_MAX 64 ∧ 1 ≤ 5 ∧
        5 ≤ (getMessageLength (World.mk [] (List.replicate 8 1) [])).1) ∧
      ∃ τ, fillString 64 5 (World.mk [] (List.replicate 8 1) []) = .ok τ ∧
        strlen τ.buf = 5 - 1 ∧
        5 - 1 < (getMessageLength (World.mk [] (List.replicate 8 1) [])).1) :=
  ⟨⟨⟨by decide, by decide⟩,
      (full_text_iff_capacity 64 15 (World.mk [] (List.replicate 16 1) [])
        (by decide) (by decide)).1⟩,
    ⟨⟨by decide, by decide, by decide, by decide⟩,
      (full_text_iff_capacity 64 5 (World.mk [] (List.replicate 8 1) [])
        (by decide) (by decide)).2 (by decide) (by decide)⟩⟩


/-! ## Frame, log and monotonicity -/

theorem fillString_ok_cString (w cap : Nat) (σ : World) (h1 : 1 ≤ cap) (hw : cap < 2 ^ w)
    (hbuf : cap ≤ σ.buf.length) :
    ∃ τ, fillString w cap σ = .ok τ ∧ cString τ.buf = helloBytes.take (min 14 (cap - 1)) := by
  refine ⟨_, fillString_ok w cap σ h1 hw hbuf, ?_⟩
  show cString (helloBytes.take (min 14 (cap - 1)) ++ 0 :: σ.buf.drop (min 14 (cap - 1) + 1))
    = helloBytes.take (min 14 (cap - 1))
  unfold cString
  rw [List.takeWhile_append_of_pos (by simpa using take_helloBytes_ne_zero (min 14 (cap - 1)))]
  simp

theorem getElem?_overwrite (pre : List Nat) (l : List Nat) (j : Nat) (hj : pre.length ≤ j) :
    (pre ++ l.drop pre.length)[j]? = l[j]? := by
  rw [List.getElem?_append_right hj, List.getElem?_drop]
  congr 1
  omega

theorem take_append_drop_take (l : List Nat) (a b : Nat) (h : a ≤ b) :
    l.take a ++ (l.take b).drop a = l.take b := by
  have e : l.take a = (l.take b).take a := by
    rw [List.take_take, Nat.min_eq_left h]
  rw [e, List.take_append_drop]

/-- C11: for every capacity of at least 1 and every buffer of at least that
many bytes, `fillString` succeeds, keeps the size of the buffer, stores exactly
at the indices `0, ..., min capacity 15 - 1`, each once (so `strncpy` pads
nothing), and every byte at an index of at least `min capacity 15` keeps its
value. -/
theorem fillString_frame (w cap : Nat) (σ : World) (h1 : 1 ≤ cap) (hw : cap < 2 ^ w)
    (hbuf : cap ≤ σ.buf.length) :
    ∃ τ, fillString w cap σ = .ok τ ∧ τ.buf.length = σ.buf.length ∧
      τ.stores = σ.stores ++ List.range (min cap 15) ∧
      ∀ j, min cap 15 ≤ j → τ.buf[j]? = σ.buf[j]? := by
  have hA := take_helloBytes_length (min 14 (cap - 1)) (by omega)
  have hk : min 14 (cap - 1) + 1 = min cap 15 := by omega
  have hpre : (helloBytes.take (min 14 (cap - 1)) ++ [0]).length = min cap 15 := by
    rw [List.length_append, hA, List.length_singleton, hk]
  have hshape : helloBytes.take (min 14 (cap - 1)) ++ 0 :: σ.buf.drop (min 14 (cap - 1) + 1)
      = (helloBytes.take (min 14 (cap - 1)) ++ [0])
        ++ σ.buf.drop (helloBytes.take (min 14 (cap - 1)) ++ [0]).length := by
    rw [hpre, hk, List.append_assoc]
    rfl
  refine ⟨_, fillString_ok w cap σ h1 hw hbuf, ?_, ?_, ?_⟩
  · show (helloBytes.take (min 14 (cap - 1)) ++ 0 :: σ.buf.drop (min 14 (cap - 1) + 1)).length
      = σ.buf.length
    simp only [List.length_append, List.length_cons, List.length_drop, hA]
    omega
  · show σ.stores ++ List.range (min 14 (cap - 1) + 1) = σ.stores ++ List.range (min cap 15)
    rw [hk]
  · intro j hj
    show (helloBytes.take (min 14 (cap - 1)) ++ 0 :: σ.buf.drop (min 14 (cap - 1) + 1))[j]?
      = σ.buf[j]?
    rw [hshape]
    exact getElem?_overwrite _ σ.buf j (by rw [hpre]; exact hj)

/-- Witness for C11 at capacity 5, on an 8 byte buffer. -/
theorem fillString_frame_witness :
    (1 ≤ 5 ∧ 5 < 2 ^ 64 ∧ 5 ≤ (World.mk [] [1, 2, 3, 4, 5, 6, 7, 8] []).buf.length) ∧
      ∃ τ, fillString 64 5 (World.mk [] [1, 2, 3, 4, 5, 6, 7, 8] []) = .ok τ ∧
        τ.buf.length = (World.mk [] [1, 2, 3, 4, 5, 6, 7, 8] []).buf.length ∧
        τ.stores = (World.mk [] [1, 2, 3, 4, 5, 6, 7, 8] []).stores ++ List.range (min 5 15) ∧
        ∀ j, min 5 15 ≤ j → τ.buf[j]? = (World.mk [] [1, 2, 3, 4, 5, 6, 7, 8] []).buf[j]? :=
  ⟨⟨by decide, by decide, by decide⟩,
    fillString_frame 64 5 (World.mk [] [1, 2, 3, 4, 5, 6, 7, 8] [])
      (by decide) (by decide) (by decide)⟩

/-- C12: a call of `fillString` with a capacity of at least 1 on a buffer of at
least that many bytes, and a call of `getMessageLength` in any state, append to
the output exactly the line `Constructor called` and then the line
`Destructor called`; a call of `addNumbers` leaves the output as it was. -/
theorem greeter_log (w cap : Nat) (σ : World) (h1 : 1 ≤ cap) (hw : cap < 2 ^ w)
    (hbuf : cap ≤ σ.buf.length) :
    (∃ τ, fillString w cap σ = .ok τ ∧
      τ.stdout = σ.stdout ++ ["Constructor called", "Destructor called"]) ∧
    (∀ ρ : World, (getMessageLength ρ).2.stdout =
      ρ.stdout ++ ["Constructor called", "Destructor called"]) ∧
    (∀ (a b : Int) (ρ : World), (addNumbers a b ρ).2.stdout = ρ.stdout) := by
  refine ⟨⟨_, fillString_ok w cap σ h1 hw hbuf, rfl⟩, ?_, fun _ _ _ => rfl⟩
  intro ρ
  simp [getMessageLength, MyClass.ctor, MyClass.dtor]

/-- Witness for C12 at capacity 20, on a 20 byte buffer, after one earlier
line of output. -/
theorem greeter_log_witness :
    (1 ≤ 20 ∧ 20 < 2 ^ 64 ∧ 20 ≤ (World.mk ["earlier"] (List.replicate 20 0) []).buf.length) ∧
      (∃ τ, fillString 64 20 (World.mk ["earlier"] (List.replicate 20 0) []) = .ok τ ∧
        τ.stdout = (World.mk ["earlier"] (List.replicate 20 0) []).stdout ++
          ["Constructor called", "Destructor called"]) ∧
      (∀ ρ : World, (getMessageLength ρ).2.stdout =
        ρ.stdout ++ ["Constructor called", "Destructor called"]) ∧
      (∀ (a b : Int) (ρ : World), (addNumbers a b ρ).2.stdout = ρ.stdout) :=
  ⟨⟨by decide, by decide, by decide⟩,
    greeter_log 64 20 (World.mk ["earlier"] (List.replicate 20 0) [])
      (by decide) (by decide) (by decide)⟩

/-- C13: for capacities `1 ≤ n ≤ m` and buffers of at least `n` and `m` bytes,
both calls of `fillString` succeed, the C string left by the call with capacity
`n` is an initial segment of the one left by the call with capacity `m`, and
both are initial segments of the text `"Hello from C++"`. -/
theorem truncation_monotone (w n m : Nat) (σn σm : World) (h1 : 1 ≤ n) (hnm : n ≤ m)
    (hw : m < 2 ^ w) (hbn : n ≤ σn.buf.length) (hbm : m ≤ σm.buf.length) :
    ∃ τn τm, fillString w n σn = .ok τn ∧ fillString w m σm = .ok τm ∧
      cString τn.buf <+: cString τm.buf ∧ cString τn.buf <+: helloBytes ∧
      cString τm.buf <+: helloBytes := by
  obtain ⟨τn, hτn, hcn⟩ := fillString_ok_cString w n σn h1 (by omega) hbn
  obtain ⟨τm, hτm, hcm⟩ := fillString_ok_cString w m σm (by omega) hw hbm
  refine ⟨τn, τm, hτn, hτm, ?_, ?_, ?_⟩
  · rw [hcn, hcm]
    exact ⟨(helloBytes.take (min 14 (m - 1))).drop (min 14 (n - 1)),
      take_append_drop_take helloBytes _ _ (by omega)⟩
  · rw [hcn]
    exact ⟨helloBytes.drop (min 14 (n - 1)), List.take_append_drop _ _⟩
  · rw [hcm]
    exact ⟨helloBytes.drop (min 14 (m - 1)), List.take_append_drop _ _⟩

/-- Witness for C13 at capacities 5 and 20, on buffers of 6 and 24 bytes. -/
theorem truncation_monotone_witness :
    (1 ≤ 5 ∧ 5 ≤ 20 ∧ 20 < 2 ^ 64 ∧ 5 ≤ (World.mk [] (List.replicate 6 9) []).buf.length ∧
        20 ≤ (World.mk [] (List.replicate 24 0) []).buf.length) ∧
      ∃ τn τm, fillString 64 5 (World.mk [] (List.replicate 6 9) []) = .ok τn ∧
        fillString 64 20 (World.mk [] (List.replicate 24 0) []) = .ok τm ∧
        cString τn.buf <+: cString τm.buf ∧ cString τn.buf <+: helloBytes ∧
        cString τm.buf <+: helloBytes :=
  ⟨⟨by decide, by decide, by decide, by decide, by decide⟩,
    truncation_monotone 64 5 20 (World.mk [] (List.replicate 6 9) [])
      (World.mk [] (List.replicate 24 0) []) (by decide) (by decide) (by decide) (by decide)
      (by decide)⟩

end NativeShim
